import Mathlib

/-!
Verification of the voice-interaction core of the Prism assistant.

This file gives a shallow embedding of the program's listening / playback /
coordination logic and proves (or refutes) the specified properties about it.

The embedding covers:
* `TTS` — the playback controller `TTSEngine` (`prism/utils/tts_engine.py`):
  the text-cleaning transform `_clean_text_for_speech`, the `speak` /
  `stop_speaking` / `_on_media_status_changed` / `_speak_in_thread` state
  changes and the effects they perform, in order.
* `SR` — the listening controller `SpeechRecognitionEngine`
  (`prism/utils/speech_recognition_engine.py`): its field-level operations and
  an interleaving model of the capture worker thread versus the
  `start_listening` / `stop_listening` API.
* `MW` — the coordinator `MainWindow` (`prism/gui/main_window.py`): the signal
  wiring of `connect_signals` and the barge-in predicate
  `detect_voice_interrupt`.

Characters are modelled over the ASCII fragment of Python's regex classes
(`\w`, `\s`); timestamps are modelled as rationals.
-/

namespace TTS

/-- ASCII fragment of Python regex `\s` (also the set stripped by `str.strip`). -/
def isSpaceChar (c : Char) : Bool :=
  c == ' ' || c == '\t' || c == '\n' || c == '\r' || c == '\x0b' || c == '\x0c'

/-- ASCII fragment of Python regex `\w`. -/
def isWordChar (c : Char) : Bool :=
  c.isAlphanum || c == '_'

/-- The punctuation kept by the character scrub `re.sub(r'[^\w\s.,?!-]', ' ', text)`. -/
def isKeptPunct (c : Char) : Bool :=
  c == '.' || c == ',' || c == '?' || c == '!' || c == '-'

/-- Membership in the character class `[\w\s.,?!-]`. -/
def inCharClass (c : Char) : Bool :=
  isWordChar c || isSpaceChar c || isKeptPunct c

/-- One character of `re.sub(r'[^\w\s.,?!-]', ' ', text)`: characters outside
the class become a space, the rest are kept. -/
def spacefix (c : Char) : Char :=
  if inCharClass c then c else ' '

/-- The replacement text substituted for each URL match. -/
def replText : List Char := [' ', 'U', 'R', 'L', ' ', 'o', 'm', 'i', 't', 't', 'e', 'd', ' ']

/-- Length of the greedy `\S+` run at the head of the list. -/
def nonspaceRun (l : List Char) : Nat :=
  (l.takeWhile (fun c => !isSpaceChar c)).length

/-- Leftmost match of `https?://\S+|www\.\S+` anchored at the head of the list:
returns the length of the match, if any.  The `s?` is greedy and the two
alternatives are tried in order, as Python's `re` does. -/
def matchAt (l : List Char) : Option Nat :=
  if ['h', 't', 't', 'p', 's', ':', '/', '/'] <+: l then
    (if nonspaceRun (l.drop 8) = 0 then none else some (8 + nonspaceRun (l.drop 8)))
  else if ['h', 't', 't', 'p', ':', '/', '/'] <+: l then
    (if nonspaceRun (l.drop 7) = 0 then none else some (7 + nonspaceRun (l.drop 7)))
  else if ['w', 'w', 'w', '.'] <+: l then
    (if nonspaceRun (l.drop 4) = 0 then none else some (4 + nonspaceRun (l.drop 4)))
  else none

theorem matchAt_pos {l : List Char} {n : Nat} (h : matchAt l = some n) :
    0 < n ∧ l ≠ [] := by
  have hne : l ≠ [] := by
    intro he
    subst he
    have hnil : matchAt [] = none := by decide
    rw [hnil] at h
    exact Option.noConfusion h
  refine ⟨?_, hne⟩
  unfold matchAt at h
  split_ifs at h with h1 h2 h3 h4 h5 h6 <;> simp_all <;> omega

/-- Fuelled scan of `re.sub(r'https?://\S+|www\.\S+', ' URL omitted ', text)`:
at each position the leftmost match is replaced and scanning resumes after it;
a non-matching character is kept.  The fuel only serves structural recursion. -/
def urlSubF : Nat → List Char → List Char
  | _, [] => []
  | 0, l => l
  | f + 1, c :: t =>
    match matchAt (c :: t) with
    | some n => replText ++ urlSubF f ((c :: t).drop n)
    | none => c :: urlSubF f t

/-- `re.sub(r'https?://\S+|www\.\S+', ' URL omitted ', text)`. -/
def urlSub (l : List Char) : List Char :=
  urlSubF l.length l

/-- `re.sub(r'\s+', ' ', text)`: each maximal whitespace run becomes one space. -/
def collapse : List Char → List Char
  | [] => []
  | [c] => if isSpaceChar c then [' '] else [c]
  | c :: d :: rest =>
    if isSpaceChar c then
      (if isSpaceChar d then collapse (d :: rest) else ' ' :: collapse (d :: rest))
    else c :: collapse (d :: rest)

/-- Leading-whitespace strip (`str.strip`, left half). -/
def lstripL (l : List Char) : List Char :=
  l.dropWhile isSpaceChar

/-- Trailing-whitespace strip (`str.strip`, right half). -/
def rstripL (l : List Char) : List Char :=
  (l.reverse.dropWhile isSpaceChar).reverse

/-- Python `str.strip()`. -/
def stripL (l : List Char) : List Char :=
  rstripL (lstripL l)

/-- `str.replace` for a single-character needle: every occurrence of `k`
becomes `v`. -/
def replOne (k : Char) (v : List Char) : List Char → List Char
  | [] => []
  | c :: t => if c == k then v ++ replOne k v t else c :: replOne k v t

/-- The `replacements` table of `_clean_text_for_speech`, in dict order. -/
def replacements : List (Char × List Char) :=
  [('+', " plus ".data), ('=', " equals ".data), ('*', " times ".data),
   ('/', " divided by ".data), ('<', " less than ".data),
   ('>', " greater than ".data), ('@', " at ".data), ('#', " hashtag ".data),
   ('$', " dollar ".data), ('%', " percent ".data), ('&', " and ".data),
   ('|', " or ".data), ('_', " underscore ".data)]

/-- The `for char, replacement in replacements.items(): text = text.replace(...)` loop. -/
def applyReplacements (l : List Char) : List Char :=
  replacements.foldl (fun acc kv => replOne kv.1 kv.2 acc) l

/-- `TTSEngine._clean_text_for_speech`, on the character list: strip URLs, scrub
characters outside `[\w\s.,?!-]` to spaces, collapse and strip whitespace, then
run the symbol-replacement table. -/
def cleanTextL (l : List Char) : List Char :=
  applyReplacements (stripL (collapse (List.map spacefix (urlSub l))))

/-- `TTSEngine._clean_text_for_speech`. -/
def cleanTextForSpeech (s : String) : String :=
  String.mk (cleanTextL s.data)

theorem urlSubF_congr (f : Nat) : ∀ (g : Nat) (l : List Char), l.length ≤ f → l.length ≤ g →
    urlSubF f l = urlSubF g l := by
  induction f with
  | zero =>
    intro g l hf _
    have hl : l = [] := List.eq_nil_of_length_eq_zero (Nat.le_zero.mp hf)
    subst hl
    cases g <;> rfl
  | succ f ih =>
    intro g l hf hg
    match l with
    | [] => cases g <;> rfl
    | c :: t =>
      match g with
      | 0 => simp at hg
      | g + 1 =>
        cases hm : matchAt (c :: t) with
        | some n =>
          have hp := matchAt_pos hm
          have h1 : ((c :: t).drop n).length ≤ f := by
            simp [List.length_drop] at *
            omega
          have h2 : ((c :: t).drop n).length ≤ g := by
            simp [List.length_drop] at *
            omega
          simp only [urlSubF, hm]
          rw [ih _ _ h1 h2]
        | none =>
          have h1 : t.length ≤ f := by simp at hf; omega
          have h2 : t.length ≤ g := by simp at hg; omega
          simp only [urlSubF, hm]
          rw [ih _ _ h1 h2]

theorem urlSub_nil : urlSub [] = [] := rfl

theorem urlSub_some {l : List Char} {n : Nat} (h : matchAt l = some n) :
    urlSub l = replText ++ urlSub (l.drop n) := by
  obtain ⟨hn, hne⟩ := matchAt_pos h
  match l with
  | c :: t =>
    show urlSubF (c :: t).length (c :: t) = _
    simp only [List.length_cons, urlSubF, h]
    congr 1
    exact urlSubF_congr _ _ _ (by simp [List.length_drop]; omega) (le_refl _)

theorem urlSub_none {c : Char} {t : List Char} (h : matchAt (c :: t) = none) :
    urlSub (c :: t) = c :: urlSub t := by
  show urlSubF (c :: t).length (c :: t) = _
  simp only [List.length_cons, urlSubF, h]
  rfl

theorem mem_urlSub : ∀ (l : List Char), ∀ a ∈ urlSub l, a ∈ l ∨ a ∈ replText := by
  have H : ∀ (n : Nat) (l : List Char), l.length ≤ n → ∀ a ∈ urlSub l, a ∈ l ∨ a ∈ replText := by
    intro n
    induction n with
    | zero =>
      intro l hl a ha
      have : l = [] := List.eq_nil_of_length_eq_zero (Nat.le_zero.mp hl)
      subst this
      rw [urlSub_nil] at ha
      simp at ha
    | succ n ih =>
      intro l hl a ha
      cases hm : matchAt l with
      | some m =>
        obtain ⟨hm1, hne⟩ := matchAt_pos hm
        rw [urlSub_some hm] at ha
        rcases List.mem_append.mp ha with h | h
        · exact Or.inr h
        · rcases ih (l.drop m) (by simp [List.length_drop] at *; omega) a h with h' | h'
          · exact Or.inl (List.mem_of_mem_drop h')
          · exact Or.inr h'
      | none =>
        match l with
        | [] =>
          rw [urlSub_nil] at ha
          simp at ha
        | c :: t =>
          rw [urlSub_none hm] at ha
          rcases List.mem_cons.mp ha with h | h
          · exact Or.inl (h ▸ List.mem_cons_self c t)
          · rcases ih t (by simp at hl; omega) a h with h' | h'
            · exact Or.inl (List.mem_cons_of_mem c h')
            · exact Or.inr h'
  exact fun l => H l.length l (le_refl _)

/-- The list begins with `www.` immediately followed by a non-whitespace
character — the shape the `www\.\S+` alternative matches. -/
def startsWWWP (l : List Char) : Prop :=
  ∃ c t, l = 'w' :: 'w' :: 'w' :: '.' :: c :: t ∧ isSpaceChar c = false

/-- No contiguous segment of `l` matches `www\.\S`. -/
def NoWww (l : List Char) : Prop :=
  ∀ t, t <:+: l → ¬ startsWWWP t

theorem seg_rfl (l : List Char) : l <:+: l :=
  ⟨[], [], by simp⟩

theorem seg_cons_cases {t l : List Char} {a : Char} (h : t <:+: a :: l) :
    t <+: a :: l ∨ t <:+: l := by
  obtain ⟨s, u, hs⟩ := h
  cases s with
  | nil => exact Or.inl ⟨u, by simpa using hs⟩
  | cons x s' =>
    have hx : x = a ∧ s' ++ t ++ u = l := by
      constructor
      · have := congrArg (List.head? ·) hs
        simpa using this
      · have := congrArg (List.tail ·) hs
        simpa using this
    exact Or.inr ⟨s', u, hx.2⟩

theorem seg_trans {a b c : List Char} (h1 : a <:+: b) (h2 : b <:+: c) : a <:+: c := by
  obtain ⟨s1, u1, hs1⟩ := h1
  obtain ⟨s2, u2, hs2⟩ := h2
  exact ⟨s2 ++ s1, u1 ++ u2, by rw [← hs2, ← hs1]; simp⟩

theorem seg_length {t l : List Char} (h : t <:+: l) : t.length ≤ l.length := by
  obtain ⟨s, u, hs⟩ := h
  rw [← hs]
  simp
  omega

theorem seg_subset {t l : List Char} (h : t <:+: l) : ∀ a ∈ t, a ∈ l := by
  obtain ⟨s, u, hs⟩ := h
  intro a ha
  rw [← hs]
  simp [ha]

theorem suff_seg {t l : List Char} (h : t <:+ l) : t <:+: l := by
  obtain ⟨s, hs⟩ := h
  exact ⟨s, [], by simpa using hs⟩

theorem pref_seg {t l : List Char} (h : t <+: l) : t <:+: l := by
  obtain ⟨u, hu⟩ := h
  exact ⟨[], u, by simpa using hu⟩

theorem noWww_of_short {l : List Char} (h : l.length ≤ 4) : NoWww l := by
  intro t ht hw
  obtain ⟨c, t', he, _⟩ := hw
  have h1 := seg_length ht
  rw [he] at h1
  simp at h1
  omega

theorem noWww_seg {t l : List Char} (h : t <:+: l) (hn : NoWww l) : NoWww t :=
  fun t' ht' => hn t' (seg_trans ht' h)

theorem matchAt_www {d : Char} {t : List Char} (hd : isSpaceChar d = false) :
    matchAt ('w' :: 'w' :: 'w' :: '.' :: d :: t) ≠ none := by
  unfold matchAt
  have h1 : ¬ (['h', 't', 't', 'p', 's', ':', '/', '/'] <+: 'w' :: 'w' :: 'w' :: '.' :: d :: t) := by
    rintro ⟨u, hu⟩
    simp at hu
  have h2 : ¬ (['h', 't', 't', 'p', ':', '/', '/'] <+: 'w' :: 'w' :: 'w' :: '.' :: d :: t) := by
    rintro ⟨u, hu⟩
    simp at hu
  have h3 : ['w', 'w', 'w', '.'] <+: 'w' :: 'w' :: 'w' :: '.' :: d :: t := ⟨d :: t, rfl⟩
  have h4 : nonspaceRun (d :: t) ≠ 0 := by
    simp [nonspaceRun, List.takeWhile_cons, hd]
  simp [h1, h2, h3, h4]

/-- A non-space head of a `urlSub` output comes from a kept input character:
the input starts with that character, no match begins there, and the rest of
the output is the scan of the rest of the input. -/
theorem urlSub_cons_nonspace {m : List Char} {e : Char} {r : List Char}
    (h : urlSub m = e :: r) (he : isSpaceChar e = false) :
    ∃ m', m = e :: m' ∧ matchAt m = none ∧ urlSub m' = r := by
  cases hm : matchAt m with
  | some n =>
    rw [urlSub_some hm] at h
    simp only [replText] at h
    injection h with h1 _
    rw [← h1] at he
    simp [isSpaceChar] at he
  | none =>
    match m with
    | [] =>
      rw [urlSub_nil] at h
      exact absurd h (by simp)
    | c :: t =>
      rw [urlSub_none hm] at h
      injection h with h1 h2
      exact ⟨t, by rw [h1], rfl, h2⟩

/-- Boundary principle: a segment of `a ++ b` whose first character does not
occur in `a` is a segment of `b`. -/
theorem seg_append_right {t a b : List Char} {x : Char}
    (h : t <:+: a ++ b) (hx : t.head? = some x) (hxa : x ∉ a) : t <:+: b := by
  induction a with
  | nil => simpa using h
  | cons y a' ih =>
    rcases seg_cons_cases (by simpa using h) with hp | hs
    · cases t with
      | nil => simp at hx
      | cons z t' =>
        obtain ⟨u, hu⟩ := hp
        have hz : z = y := by
          have := congrArg (List.head? ·) hu
          simpa using this
        simp at hx
        rw [← hx, hz] at hxa
        exact absurd (List.mem_cons_self y a') hxa
    · exact ih hs (fun hmem => hxa (List.mem_cons_of_mem y hmem))

theorem replText_no_w : 'w' ∉ replText := by decide

theorem noWww_urlSub (l : List Char) : NoWww (urlSub l) := by
  have H : ∀ (n : Nat) (l : List Char), l.length ≤ n → NoWww (urlSub l) := by
    intro n
    induction n with
    | zero =>
      intro l hl
      have : l = [] := List.eq_nil_of_length_eq_zero (Nat.le_zero.mp hl)
      subst this
      rw [urlSub_nil]
      exact noWww_of_short (by simp)
    | succ n ih =>
      intro l hl t ht hw
      cases hm : matchAt l with
      | some m =>
        obtain ⟨hm1, hne⟩ := matchAt_pos hm
        rw [urlSub_some hm] at ht
        obtain ⟨c, t2, hte, hc⟩ := hw
        have hhead : t.head? = some 'w' := by rw [hte]; rfl
        have hstep : t <:+: urlSub (l.drop m) := seg_append_right ht hhead replText_no_w
        exact ih (l.drop m) (by simp [List.length_drop] at *; omega) t hstep ⟨c, t2, hte, hc⟩
      | none =>
        match l with
        | [] =>
          rw [urlSub_nil] at ht
          obtain ⟨s, u, hs⟩ := ht
          obtain ⟨c, t2, hte, hc⟩ := hw
          rw [hte] at hs
          simp [List.append_eq_nil] at hs
        | c :: tl =>
          rw [urlSub_none hm] at ht
          rcases seg_cons_cases ht with hpre | hseg
          · obtain ⟨d, t2, hte, hd⟩ := hw
            obtain ⟨u, hu⟩ := hpre
            rw [hte] at hu
            simp only [List.cons_append] at hu
            injection hu with hc1 hu1
            have hu2 : urlSub tl = 'w' :: 'w' :: '.' :: d :: (t2 ++ u) := by
              simpa using hu1.symm
            obtain ⟨tl1, htl1, _, hr1⟩ := urlSub_cons_nonspace hu2 (by decide)
            obtain ⟨tl2, htl2, _, hr2⟩ := urlSub_cons_nonspace hr1 (by decide)
            obtain ⟨tl3, htl3, _, hr3⟩ := urlSub_cons_nonspace hr2 (by decide)
            obtain ⟨tl4, htl4, _, _⟩ := urlSub_cons_nonspace hr3 hd
            rw [← hc1, htl1, htl2, htl3, htl4] at hm
            exact matchAt_www hd hm
          · exact ih tl (by simp at hl; omega) t hseg hw
  exact H l.length l (le_refl _)

theorem urlSub_id : ∀ (l : List Char), NoWww l → (':' ∉ l) → urlSub l = l := by
  have H : ∀ (n : Nat) (l : List Char), l.length ≤ n → NoWww l → (':' ∉ l) → urlSub l = l := by
    intro n
    induction n with
    | zero =>
      intro l hl _ _
      have : l = [] := List.eq_nil_of_length_eq_zero (Nat.le_zero.mp hl)
      subst this
      exact urlSub_nil
    | succ n ih =>
      intro l hl hw hc
      cases hm : matchAt l with
      | some m =>
        exfalso
        unfold matchAt at hm
        by_cases h1 : ['h', 't', 't', 'p', 's', ':', '/', '/'] <+: l
        · obtain ⟨u, hu⟩ := h1
          apply hc
          rw [← hu]
          simp
        · rw [if_neg h1] at hm
          by_cases h2 : ['h', 't', 't', 'p', ':', '/', '/'] <+: l
          · obtain ⟨u, hu⟩ := h2
            apply hc
            rw [← hu]
            simp
          · rw [if_neg h2] at hm
            by_cases h3 : ['w', 'w', 'w', '.'] <+: l
            · rw [if_pos h3] at hm
              obtain ⟨u, hu⟩ := h3
              have hrun : nonspaceRun (l.drop 4) ≠ 0 := by
                intro hz
                rw [if_pos hz] at hm
                exact Option.noConfusion hm
              have hu4 : l.drop 4 = u := by
                rw [← hu]
                rfl
              rw [hu4] at hrun
              cases u with
              | nil => exact hrun rfl
              | cons e u' =>
                have he : isSpaceChar e = false := by
                  by_contra hee
                  simp only [Bool.not_eq_false] at hee
                  simp [nonspaceRun, List.takeWhile_cons, hee] at hrun
                exact hw l (seg_rfl l) ⟨e, u', by rw [← hu]; rfl, he⟩
            · rw [if_neg h3] at hm
              exact Option.noConfusion hm
      | none =>
        match l with
        | [] => exact urlSub_nil
        | c :: tl =>
          rw [urlSub_none hm]
          have htl : urlSub tl = tl := by
            apply ih tl (by simp at hl; omega)
            · exact noWww_seg (suff_seg ⟨[c], rfl⟩) hw
            · exact fun hmem => hc (List.mem_cons_of_mem c hmem)
          rw [htl]
  exact fun l => H l.length l (le_refl _)

theorem collapse_nil : collapse [] = [] := rfl

theorem collapse_cons_not_space {d : Char} (r : List Char) (hd : isSpaceChar d = false) :
    collapse (d :: r) = d :: collapse r := by
  cases r with
  | nil => simp [collapse, hd]
  | cons e r' => simp [collapse, hd]

theorem collapse_space_head : ∀ (m : List Char) (a : Char), isSpaceChar a = true →
    ∃ r, collapse (a :: m) = ' ' :: r := by
  intro m
  induction m with
  | nil =>
    intro a ha
    exact ⟨[], by simp [collapse, ha]⟩
  | cons b m2 ih =>
    intro a ha
    by_cases hb : isSpaceChar b
    · obtain ⟨r, hr⟩ := ih b hb
      exact ⟨r, by simp [collapse, ha, hb, hr]⟩
    · exact ⟨collapse (b :: m2), by simp [collapse, ha, hb]⟩

theorem collapse_head_nonspace {m : List Char} {x : Char} {r : List Char}
    (h : collapse m = x :: r) (hx : isSpaceChar x = false) :
    ∃ m', m = x :: m' ∧ collapse m' = r := by
  match m with
  | [] => exact absurd h (by simp [collapse])
  | a :: m1 =>
    by_cases ha : isSpaceChar a
    · obtain ⟨r', hr'⟩ := collapse_space_head m1 a ha
      rw [hr'] at h
      injection h with h1 _
      rw [← h1] at hx
      simp [isSpaceChar] at hx
    · rw [collapse_cons_not_space m1 (by simpa using ha)] at h
      injection h with h1 h2
      exact ⟨m1, by rw [h1], h2⟩

theorem noWww_collapse : ∀ (v : List Char), NoWww v → NoWww (collapse v) := by
  have H : ∀ (n : Nat) (v : List Char), v.length ≤ n → NoWww v → NoWww (collapse v) := by
    intro n
    induction n with
    | zero =>
      intro v hv _
      have : v = [] := List.eq_nil_of_length_eq_zero (Nat.le_zero.mp hv)
      subst this
      exact noWww_of_short (by simp [collapse])
    | succ n ih =>
      intro v hv hw
      match v with
      | [] => exact noWww_of_short (by simp [collapse])
      | [c] =>
        have : (collapse [c]).length ≤ 4 := by
          by_cases hc : isSpaceChar c <;> simp [collapse, hc]
        exact noWww_of_short this
      | c :: d :: rest =>
        have hwtail : NoWww (d :: rest) := noWww_seg (suff_seg ⟨[c], rfl⟩) hw
        have hlen : (d :: rest).length ≤ n := by simp at hv ⊢; omega
        by_cases hc : isSpaceChar c
        · by_cases hd : isSpaceChar d
          · rw [show collapse (c :: d :: rest) = collapse (d :: rest) by simp [collapse, hc, hd]]
            exact ih _ hlen hwtail
          · rw [show collapse (c :: d :: rest) = ' ' :: collapse (d :: rest) by
              simp [collapse, hc, hd]]
            intro t ht hwt
            rcases seg_cons_cases ht with hp | hs
            · obtain ⟨e, t2, hte, _⟩ := hwt
              obtain ⟨u, hu⟩ := hp
              rw [hte] at hu
              injection hu with h1 _
              exact absurd h1 (by decide)
            · exact ih _ hlen hwtail t hs hwt
        · rw [collapse_cons_not_space (d :: rest) (by simpa using hc)]
          intro t ht hwt
          rcases seg_cons_cases ht with hp | hs
          · obtain ⟨e, t2, hte, he⟩ := hwt
            obtain ⟨u, hu⟩ := hp
            rw [hte] at hu
            simp only [List.cons_append] at hu
            injection hu with hc1 hu1
            have hu2 : collapse (d :: rest) = 'w' :: 'w' :: '.' :: e :: (t2 ++ u) := by
              simpa using hu1.symm
            obtain ⟨m1, hm1, hr1⟩ := collapse_head_nonspace hu2 (by decide)
            obtain ⟨m2, hm2, hr2⟩ := collapse_head_nonspace hr1 (by decide)
            obtain ⟨m3, hm3, hr3⟩ := collapse_head_nonspace hr2 (by decide)
            obtain ⟨m4, hm4, _⟩ := collapse_head_nonspace hr3 he
            apply hw ('w' :: 'w' :: 'w' :: '.' :: e :: m4)
            · rw [← hc1, hm1, hm2, hm3, hm4]
            · exact ⟨e, m4, rfl, he⟩
          · exact ih _ hlen hwtail t hs hwt
  exact fun v => H v.length v (le_refl _)

/-- Head of the list is not whitespace (or the list is empty). -/
def noSpaceHead : List Char → Bool
  | [] => true
  | d :: _ => !isSpaceChar d

/-- Whitespace-normal form: every whitespace character is a plain space and is
followed by a non-space or the end — exactly the lists `re.sub(r'\s+',' ',·)`
leaves unchanged. -/
def spacesOk : List Char → Bool
  | [] => true
  | c :: rest => (!isSpaceChar c || (c == ' ' && noSpaceHead rest)) && spacesOk rest

theorem spacesOk_cons {c : Char} {rest : List Char} :
    spacesOk (c :: rest) =
      ((!isSpaceChar c || (c == ' ' && noSpaceHead rest)) && spacesOk rest) := rfl

theorem bool_and_true {a b : Bool} (h : (a && b) = true) : a = true ∧ b = true := by
  cases a <;> cases b <;> simp_all

theorem bool_or_true {a b : Bool} (h : (a || b) = true) : a = true ∨ b = true := by
  cases a <;> cases b <;> simp_all

theorem spacesOk_collapse : ∀ (l : List Char), spacesOk (collapse l) = true := by
  have H : ∀ (n : Nat) (l : List Char), l.length ≤ n → spacesOk (collapse l) = true := by
    intro n
    induction n with
    | zero =>
      intro l hl
      have : l = [] := List.eq_nil_of_length_eq_zero (Nat.le_zero.mp hl)
      subst this
      rfl
    | succ n ih =>
      intro l hl
      match l with
      | [] => rfl
      | [c] => by_cases hc : isSpaceChar c <;> simp [collapse, spacesOk, noSpaceHead, hc]
      | c :: d :: rest =>
        have hlen : (d :: rest).length ≤ n := by simp at hl ⊢; omega
        by_cases hc : isSpaceChar c
        · by_cases hd : isSpaceChar d
          · rw [show collapse (c :: d :: rest) = collapse (d :: rest) by simp [collapse, hc, hd]]
            exact ih _ hlen
          · have hd' : isSpaceChar d = false := by simpa using hd
            rw [show collapse (c :: d :: rest) = ' ' :: collapse (d :: rest) by
              simp [collapse, hc, hd]]
            have hhd : collapse (d :: rest) = d :: collapse rest :=
              collapse_cons_not_space rest hd'
            have hok := ih _ hlen
            rw [spacesOk_cons, hhd]
            rw [hhd] at hok
            simp [noSpaceHead, hd', hok]
        · have hc' : isSpaceChar c = false := by simpa using hc
          rw [collapse_cons_not_space (d :: rest) hc']
          rw [spacesOk_cons]
          have hok := ih _ hlen
          simp [hc', hok]
  exact fun l => H l.length l (le_refl _)

theorem spacesOk_append_right {a b : List Char} (h : spacesOk (a ++ b) = true) :
    spacesOk b = true := by
  induction a with
  | nil => simpa using h
  | cons x a' ih =>
    apply ih
    have h' : spacesOk (x :: (a' ++ b)) = true := by simpa using h
    rw [spacesOk_cons] at h'
    exact (bool_and_true h').2

theorem spacesOk_append_left : ∀ (a b : List Char), spacesOk (a ++ b) = true →
    spacesOk a = true := by
  intro a
  induction a with
  | nil => intro b _; rfl
  | cons x a' ih =>
    intro b h
    have h' : spacesOk (x :: (a' ++ b)) = true := by simpa using h
    rw [spacesOk_cons] at h'
    obtain ⟨h1, h2⟩ := bool_and_true h'
    have hg2 : spacesOk a' = true := ih b h2
    rw [spacesOk_cons, hg2, Bool.and_true]
    cases a' with
    | nil =>
      rcases bool_or_true h1 with hx | hx
      · simp [hx]
      · obtain ⟨hx1, _⟩ := bool_and_true hx
        simp [noSpaceHead, hx1]
    | cons y a'' =>
      simpa [noSpaceHead] using h1

theorem spacesOk_seg {t l : List Char} (h : t <:+: l) (hl : spacesOk l = true) :
    spacesOk t = true := by
  obtain ⟨s, u, hs⟩ := h
  have h1 : spacesOk (t ++ u) = true := by
    apply spacesOk_append_right (a := s)
    rw [show s ++ (t ++ u) = s ++ t ++ u by simp]
    rw [hs]
    exact hl
  exact spacesOk_append_left t u h1

theorem collapse_of_spacesOk : ∀ (l : List Char), spacesOk l = true → collapse l = l := by
  intro l
  induction l with
  | nil => intro _; rfl
  | cons c rest ih =>
    intro h
    rw [spacesOk_cons] at h
    obtain ⟨h1, h2⟩ := bool_and_true h
    cases rest with
    | nil =>
      rcases bool_or_true h1 with hx | hx
      · have : isSpaceChar c = false := by simpa using hx
        simp [collapse, this]
      · obtain ⟨hx1, _⟩ := bool_and_true hx
        have : c = ' ' := by simpa using hx1
        subst this
        simp [collapse, isSpaceChar]
    | cons d r' =>
      have hrest : collapse (d :: r') = d :: r' := ih h2
      by_cases hc : isSpaceChar c
      · have hce : c = ' ' := by
          rcases bool_or_true h1 with hx | hx
          · simp [hc] at hx
          · exact by simpa using (bool_and_true hx).1
        have hnsh : noSpaceHead (d :: r') = true := by
          rcases bool_or_true h1 with hx | hx
          · simp [hc] at hx
          · exact (bool_and_true hx).2
        have hd : isSpaceChar d = false := by simpa [noSpaceHead] using hnsh
        rw [show collapse (c :: d :: r') = ' ' :: collapse (d :: r') by
          simp [collapse, hc, hd]]
        rw [hrest, hce]
      · rw [collapse_cons_not_space (d :: r') (by simpa using hc)]
        rw [hrest]

theorem dropWhile_head_false {p : Char → Bool} :
    ∀ {l c t}, List.dropWhile p l = c :: t → p c = false := by
  intro l
  induction l with
  | nil =>
    intro c t h
    simp [List.dropWhile] at h
  | cons x l' ih =>
    intro c t h
    by_cases hx : p x
    · rw [List.dropWhile_cons_of_pos hx] at h
      exact ih h
    · rw [List.dropWhile_cons_of_neg hx] at h
      injection h with h1 _
      rw [← h1]
      simpa using hx

theorem dropWhile_idem {p : Char → Bool} (l : List Char) :
    List.dropWhile p (List.dropWhile p l) = List.dropWhile p l := by
  cases hd : List.dropWhile p l with
  | nil => rfl
  | cons c t =>
    have hc := dropWhile_head_false hd
    rw [List.dropWhile_cons_of_neg (by simp [hc])]

theorem lstrip_idem (l : List Char) : lstripL (lstripL l) = lstripL l :=
  dropWhile_idem l

theorem rstrip_idem (l : List Char) : rstripL (rstripL l) = rstripL l := by
  unfold rstripL
  rw [List.reverse_reverse, dropWhile_idem]

theorem rstrip_pref (l : List Char) : rstripL l <+: l := by
  rw [← List.reverse_suffix]
  unfold rstripL
  rw [List.reverse_reverse]
  exact List.dropWhile_suffix isSpaceChar

theorem lstrip_suff (l : List Char) : lstripL l <:+ l :=
  List.dropWhile_suffix isSpaceChar

theorem stripL_seg (l : List Char) : stripL l <:+: l := by
  obtain ⟨u, hu⟩ := rstrip_pref (lstripL l)
  obtain ⟨s, hs⟩ := lstrip_suff l
  refine ⟨s, u, ?_⟩
  show s ++ stripL l ++ u = l
  unfold stripL
  rw [List.append_assoc, hu, hs]

theorem lstrip_of_lstripped {v : List Char} (h : lstripL v = v) :
    lstripL (rstripL v) = rstripL v := by
  cases hr : rstripL v with
  | nil => rfl
  | cons c t =>
    have hpref := rstrip_pref v
    rw [hr] at hpref
    obtain ⟨u, hu⟩ := hpref
    have hv : v = c :: (t ++ u) := by rw [← hu]; simp
    have hc : isSpaceChar c = false := by
      apply dropWhile_head_false (l := v) (t := t ++ u)
      rw [show List.dropWhile isSpaceChar v = lstripL v from rfl, h, hv]
    show List.dropWhile isSpaceChar (c :: t) = c :: t
    rw [List.dropWhile_cons_of_neg (by simp [hc])]

theorem stripL_idem (l : List Char) : stripL (stripL l) = stripL l := by
  unfold stripL
  rw [lstrip_of_lstripped (lstrip_idem l), rstrip_idem]

theorem spacefix_cases (c : Char) : spacefix c = c ∨ spacefix c = ' ' := by
  unfold spacefix
  split_ifs <;> simp

theorem spacefix_class (c : Char) : inCharClass (spacefix c) = true := by
  unfold spacefix
  split_ifs with h
  · exact h
  · decide

theorem spacefix_nonspace {a c : Char} (h : spacefix a = c) (hc : isSpaceChar c = false) :
    a = c := by
  rcases spacefix_cases a with h' | h'
  · rw [h'] at h
    exact h
  · rw [h] at h'
    rw [h'] at hc
    simp [isSpaceChar] at hc

theorem class_map_spacefix {u : List Char} : ∀ c ∈ List.map spacefix u, inCharClass c = true := by
  intro c hc
  obtain ⟨a, _, ha⟩ := List.mem_map.mp hc
  rw [← ha]
  exact spacefix_class a

theorem mem_collapse : ∀ (l : List Char), ∀ c ∈ collapse l, c ∈ l ∨ c = ' ' := by
  intro l
  induction l with
  | nil =>
    intro c hc
    simp [collapse] at hc
  | cons a rest ih =>
    intro c hc
    cases rest with
    | nil =>
      by_cases ha : isSpaceChar a
      · simp [collapse, ha] at hc
        exact Or.inr hc
      · simp [collapse, ha] at hc
        exact Or.inl (by simp [hc])
    | cons d r' =>
      by_cases ha : isSpaceChar a
      · by_cases hd : isSpaceChar d
        · rw [show collapse (a :: d :: r') = collapse (d :: r') by simp [collapse, ha, hd]] at hc
          rcases ih c hc with h | h
          · exact Or.inl (List.mem_cons_of_mem a h)
          · exact Or.inr h
        · rw [show collapse (a :: d :: r') = ' ' :: collapse (d :: r') by
            simp [collapse, ha, hd]] at hc
          rcases List.mem_cons.mp hc with h | h
          · exact Or.inr h
          · rcases ih c h with h' | h'
            · exact Or.inl (List.mem_cons_of_mem a h')
            · exact Or.inr h'
      · rw [collapse_cons_not_space (d :: r') (by simpa using ha)] at hc
        rcases List.mem_cons.mp hc with h | h
        · exact Or.inl (by simp [h])
        · rcases ih c h with h' | h'
          · exact Or.inl (List.mem_cons_of_mem a h')
          · exact Or.inr h'

theorem class_clean {m : List Char} :
    ∀ c ∈ stripL (collapse (List.map spacefix m)), inCharClass c = true := by
  intro c hc
  have h1 : c ∈ collapse (List.map spacefix m) :=
    seg_subset (stripL_seg _) c hc
  rcases mem_collapse _ c h1 with h | h
  · exact class_map_spacefix c h
  · rw [h]
    decide

theorem map_peel {x : Char} {r t0 : List Char} (h : x :: r = List.map spacefix t0)
    (hx : isSpaceChar x = false) : ∃ t1, t0 = x :: t1 ∧ r = List.map spacefix t1 := by
  cases t0 with
  | nil => simp at h
  | cons a t1 =>
    rw [List.map_cons] at h
    injection h with h1 h2
    have ha : a = x := spacefix_nonspace h1.symm hx
    exact ⟨t1, by rw [ha], h2⟩

theorem seg_map {t u : List Char} (h : t <:+: List.map spacefix u) :
    ∃ t0, t0 <:+: u ∧ t = List.map spacefix t0 := by
  obtain ⟨s, v, hs⟩ := h
  refine ⟨(u.drop s.length).take t.length, ?_, ?_⟩
  · refine ⟨u.take s.length, (u.drop s.length).drop t.length, ?_⟩
    rw [List.append_assoc, List.take_append_drop, List.take_append_drop]
  · have hs' : s ++ (t ++ v) = List.map spacefix u := by rw [← List.append_assoc]; exact hs
    rw [List.map_take, List.map_drop, ← hs', List.drop_left, List.take_left]

theorem noWww_map {u : List Char} (h : NoWww u) : NoWww (List.map spacefix u) := by
  intro t ht hw
  obtain ⟨t0, hseg, hmap⟩ := seg_map ht
  obtain ⟨c, t2, hte, hc⟩ := hw
  rw [hte] at hmap
  obtain ⟨r1, hr1, hm1⟩ := map_peel hmap (by decide)
  obtain ⟨r2, hr2, hm2⟩ := map_peel hm1 (by decide)
  obtain ⟨r3, hr3, hm3⟩ := map_peel hm2 (by decide)
  obtain ⟨r4, hr4, hm4⟩ := map_peel hm3 (by decide)
  obtain ⟨r5, hr5, _⟩ := map_peel hm4 hc
  apply h t0 hseg
  rw [hr1, hr2, hr3, hr4, hr5]
  exact ⟨c, r5, rfl, hc⟩

theorem replOne_of_not_mem {k : Char} {v : List Char} : ∀ {l}, k ∉ l → replOne k v l = l := by
  intro l
  induction l with
  | nil => intro _; rfl
  | cons c t ih =>
    intro h
    have hck : c ≠ k := fun he => h (he ▸ List.mem_cons_self c t)
    have ht : k ∉ t := fun hm => h (List.mem_cons_of_mem c hm)
    simp [replOne, hck, ih ht]

theorem applyReplacements_id {l : List Char} (h : ∀ p ∈ replacements, p.1 ∉ l) :
    applyReplacements l = l := by
  have h01 : '+' ∉ l := h ('+', " plus ".data) (by decide)
  have h02 : '=' ∉ l := h ('=', " equals ".data) (by decide)
  have h03 : '*' ∉ l := h ('*', " times ".data) (by decide)
  have h04 : '/' ∉ l := h ('/', " divided by ".data) (by decide)
  have h05 : '<' ∉ l := h ('<', " less than ".data) (by decide)
  have h06 : '>' ∉ l := h ('>', " greater than ".data) (by decide)
  have h07 : '@' ∉ l := h ('@', " at ".data) (by decide)
  have h08 : '#' ∉ l := h ('#', " hashtag ".data) (by decide)
  have h09 : '$' ∉ l := h ('$', " dollar ".data) (by decide)
  have h10 : '%' ∉ l := h ('%', " percent ".data) (by decide)
  have h11 : '&' ∉ l := h ('&', " and ".data) (by decide)
  have h12 : '|' ∉ l := h ('|', " or ".data) (by decide)
  have h13 : '_' ∉ l := h ('_', " underscore ".data) (by decide)
  simp only [applyReplacements, replacements, List.foldl]
  rw [replOne_of_not_mem h01, replOne_of_not_mem h02, replOne_of_not_mem h03,
    replOne_of_not_mem h04, replOne_of_not_mem h05, replOne_of_not_mem h06,
    replOne_of_not_mem h07, replOne_of_not_mem h08, replOne_of_not_mem h09,
    replOne_of_not_mem h10, replOne_of_not_mem h11, replOne_of_not_mem h12,
    replOne_of_not_mem h13]

theorem not_mem_urlSub {l : List Char} (h : '_' ∉ l) : '_' ∉ urlSub l := by
  intro hm
  rcases mem_urlSub l '_' hm with h' | h'
  · exact h h'
  · revert h'
    decide

/-- Applying `_clean_text_for_speech` twice equals applying it once, for inputs
without an underscore (the only replacement-table key surviving the
special-character scrub). -/
theorem cleanTextL_idem {l : List Char} (h : '_' ∉ l) :
    cleanTextL (cleanTextL l) = cleanTextL l := by
  have h2 : '_' ∉ List.map spacefix (urlSub l) := by
    intro hm
    obtain ⟨a, ha, hfa⟩ := List.mem_map.mp hm
    have ha' : a = '_' := spacefix_nonspace hfa (by decide)
    exact not_mem_urlSub h (ha' ▸ ha)
  have h3 : '_' ∉ collapse (List.map spacefix (urlSub l)) := by
    intro hm
    rcases mem_collapse _ _ hm with h' | h'
    · exact h2 h'
    · exact absurd h' (by decide)
  have hUy : '_' ∉ stripL (collapse (List.map spacefix (urlSub l))) :=
    fun hm => h3 (seg_subset (stripL_seg _) _ hm)
  have hclassy := class_clean (m := urlSub l)
  have hkeys : ∀ p ∈ replacements, p.1 ∉ stripL (collapse (List.map spacefix (urlSub l))) := by
    intro p hp
    fin_cases hp
    case _ => exact fun hm => absurd (hclassy _ hm) (by decide)
    case _ => exact fun hm => absurd (hclassy _ hm) (by decide)
    case _ => exact fun hm => absurd (hclassy _ hm) (by decide)
    case _ => exact fun hm => absurd (hclassy _ hm) (by decide)
    case _ => exact fun hm => absurd (hclassy _ hm) (by decide)
    case _ => exact fun hm => absurd (hclassy _ hm) (by decide)
    case _ => exact fun hm => absurd (hclassy _ hm) (by decide)
    case _ => exact fun hm => absurd (hclassy _ hm) (by decide)
    case _ => exact fun hm => absurd (hclassy _ hm) (by decide)
    case _ => exact fun hm => absurd (hclassy _ hm) (by decide)
    case _ => exact fun hm => absurd (hclassy _ hm) (by decide)
    case _ => exact fun hm => absurd (hclassy _ hm) (by decide)
    case _ => exact hUy
  have h1 : cleanTextL l = stripL (collapse (List.map spacefix (urlSub l))) := by
    unfold cleanTextL
    exact applyReplacements_id hkeys
  have hnw : NoWww (stripL (collapse (List.map spacefix (urlSub l)))) :=
    noWww_seg (stripL_seg _) (noWww_collapse _ (noWww_map (noWww_urlSub l)))
  have hcolon : ':' ∉ stripL (collapse (List.map spacefix (urlSub l))) := by
    intro hm
    exact absurd (hclassy _ hm) (by decide)
  have hurl := urlSub_id _ hnw hcolon
  have hmapid : List.map spacefix (stripL (collapse (List.map spacefix (urlSub l)))) =
      stripL (collapse (List.map spacefix (urlSub l))) := by
    have hall : ∀ a ∈ stripL (collapse (List.map spacefix (urlSub l))), spacefix a = id a := by
      intro a ha
      show spacefix a = a
      unfold spacefix
      rw [if_pos (hclassy a ha)]
    rw [List.map_congr_left hall, List.map_id]
  have hOk : spacesOk (stripL (collapse (List.map spacefix (urlSub l)))) = true :=
    spacesOk_seg (stripL_seg _) (spacesOk_collapse _)
  have hcol := collapse_of_spacesOk _ hOk
  have hstr := stripL_idem (collapse (List.map spacefix (urlSub l)))
  rw [h1]
  unfold cleanTextL
  rw [hurl, hmapid, hcol, hstr]
  exact applyReplacements_id hkeys

/-- C5: evaluating `_clean_text_for_speech` at `"Check https://x.com now! 50%"`.
The output contains no literal URL, but `%` was deleted by the
special-character scrub `re.sub(r'[^\w\s.,?!-]', ' ', ...)`, which runs before
the replacement table, so `" percent "` never appears: the claimed replacement
of `%` by `" percent "` does not happen. -/
theorem c5_clean_scenario_b :
    cleanTextForSpeech "Check https://x.com now! 50%" = "Check URL omitted now! 50"
    ∧ ¬ ("http".data <:+: (cleanTextForSpeech "Check https://x.com now! 50%").data)
    ∧ ¬ ("www.".data <:+: (cleanTextForSpeech "Check https://x.com now! 50%").data)
    ∧ ¬ ("percent".data <:+: (cleanTextForSpeech "Check https://x.com now! 50%").data) := by
  decide

/-- C6: counterexample to idempotence of the text-cleaning transform.  On
`"a _ b"` the `'_' → ' underscore '` replacement runs after whitespace
collapsing and leaves double spaces, which only a second application
collapses, so applying the transform twice differs from applying it once. -/
theorem c6_counterexample :
    cleanTextForSpeech (cleanTextForSpeech "a _ b") ≠ cleanTextForSpeech "a _ b"
    ∧ cleanTextForSpeech "a _ b" = "a  underscore  b"
    ∧ cleanTextForSpeech (cleanTextForSpeech "a _ b") = "a underscore b" := by
  decide

/-- C6 (amended): the text-cleaning transform is idempotent on every input
containing no underscore; underscore is the only replacement-table key that
survives the special-character scrub, and its replacement can introduce
whitespace that a second application normalises. -/
theorem c6_clean_idem_no_underscore (s : String) (h : '_' ∉ s.data) :
    cleanTextForSpeech (cleanTextForSpeech s) = cleanTextForSpeech s := by
  have hdm : ∀ (m : List Char), (String.mk m).data = m := fun _ => rfl
  unfold cleanTextForSpeech
  rw [hdm, cleanTextL_idem h]

/-- Witness for the amended idempotence theorem at a concrete input. -/
theorem c6_clean_idem_witness :
    cleanTextForSpeech (cleanTextForSpeech "Hello,  world! a+b=c 100%") =
      cleanTextForSpeech "Hello,  world! a+b=c 100%" :=
  c6_clean_idem_no_underscore "Hello,  world! a+b=c 100%" (by decide)

/-- Observable effects performed by `TTSEngine` methods, in program order. -/
inductive TTSAction
  | setSpeakingTrue
  | setSpeakingFalse
  | playerStop
  | playerPlay
  | cleanupTempFile
  | unlinkTempFile
  | emitPlaybackStarted
  | emitPlaybackFinished
  | startSpeakThread (text : String)
  | startInterruptMonitor
  | recordTimestamp
  deriving DecidableEq, Repr

/-- The mutable `TTSEngine` state relevant to playback: `is_speaking` and the
temp-file slot. -/
structure TTSState where
  is_speaking : Bool
  temp_file : Option String
  deriving DecidableEq, Repr

/-- `TTSEngine.stop_speaking`: only acts when `is_speaking` — clears the flag,
stops the player, removes the temp file, and emits `playback_finished`. -/
def stop_speaking (s : TTSState) : TTSState × List TTSAction :=
  if s.is_speaking then
    ({ is_speaking := false, temp_file := none },
      [.setSpeakingFalse, .playerStop, .cleanupTempFile, .emitPlaybackFinished])
  else (s, [])

/-- `TTSEngine.speak`: empty (falsy) text returns immediately; otherwise the
text is cleaned, any current speech is stopped, `is_speaking` is set,
`playback_started` is emitted and the speaking thread is started. -/
def speak (s : TTSState) (text : String) : TTSState × List TTSAction :=
  if text = "" then (s, [])
  else
    let p := if s.is_speaking then stop_speaking s else (s, [])
    ({ p.1 with is_speaking := true },
      p.2 ++ [.setSpeakingTrue, .emitPlaybackStarted,
        .startSpeakThread (cleanTextForSpeech text)])

/-- Qt media-status values as seen by `_on_media_status_changed`. -/
inductive MediaStatus
  | endOfMedia
  | other
  deriving DecidableEq, Repr

/-- `TTSEngine._on_media_status_changed`: on natural end of audio, clear
`is_speaking`, release the temp file, then emit `playback_finished`. -/
def onMediaStatusChanged (s : TTSState) (st : MediaStatus) : TTSState × List TTSAction :=
  if st = .endOfMedia then
    ({ is_speaking := false, temp_file := none },
      [.setSpeakingFalse, .cleanupTempFile, .emitPlaybackFinished])
  else (s, [])

/-- `TTSEngine._generate_speech`: the edge-tts call is wrapped in try/except —
a synthesis backend error (`synthOk = false`) is logged and swallowed, so the
coroutine always returns normally. -/
def generateSpeech (synthOk : Bool) : Except String Unit :=
  match (if synthOk then Except.ok () else Except.error "synthesis error" :
      Except String Unit) with
  | Except.ok u => Except.ok u
  | Except.error _ => Except.ok ()

/-- `TTSEngine._speak_in_thread`: `tempOk` says whether creating the temporary
file succeeds (an exception there reaches the outer handler, which clears
`is_speaking` and emits `playback_finished`); `synthOk` is the synthesis
backend outcome; `hasDetector` is whether an interrupt detector is set. -/
def speakInThread (s : TTSState) (tempOk synthOk hasDetector : Bool) :
    TTSState × List TTSAction :=
  if tempOk = false then
    ({ s with is_speaking := false }, [.setSpeakingFalse, .emitPlaybackFinished])
  else
    let s1 : TTSState := { s with temp_file := some "tts.mp3" }
    match generateSpeech synthOk with
    | Except.error _ =>
      ({ s1 with is_speaking := false }, [.setSpeakingFalse, .emitPlaybackFinished])
    | Except.ok _ =>
      if s1.is_speaking = false then
        (s1, [.unlinkTempFile])
      else
        (s1, [.playerPlay] ++ (if hasDetector then [.startInterruptMonitor] else []))

/-- The `monitor_interruption` loop calls `stop_speaking` exactly when some
poll of the interrupt predicate returns true while speech is ongoing. -/
def monitorCallsStop (checks : List Bool) : Bool :=
  checks.any (fun b => b)

/-- Actions before the first `playback_finished` emission contain a recording
of the playback-ended (debounce) timestamp. -/
def recordsTimestampBeforeFinish (acts : List TTSAction) : Bool :=
  (acts.takeWhile (fun a => !(a == TTSAction.emitPlaybackFinished))).contains
    TTSAction.recordTimestamp

/-- C3: counterexample.  A synthesis backend error is swallowed inside
`_generate_speech`, so `_speak_in_thread` continues as if generation had
succeeded: with the session still speaking, the failed generation leaves
`is_speaking` true, emits no `playback_finished`, and proceeds to play the
(empty) output file — the claimed transition to idle does not happen. -/
theorem c3_counterexample :
    (speakInThread ⟨true, none⟩ true false true).1.is_speaking = true
    ∧ TTSAction.emitPlaybackFinished ∉ (speakInThread ⟨true, none⟩ true false true).2
    ∧ (speakInThread ⟨true, none⟩ true false true).2
        = [TTSAction.playerPlay, TTSAction.startInterruptMonitor] := by
  decide

/-- C3 (amended): a synthesis backend error never raises to the caller —
`_generate_speech` returns normally — but it neither returns the controller to
idle nor emits `playback_finished`: the thread continues to playback.  Only an
error outside generation (temp-file creation, `tempOk = false`) clears
`is_speaking` and emits `playback_finished`. -/
theorem c3_amended (s : TTSState) (synthOk : Bool) :
    generateSpeech synthOk = Except.ok ()
    ∧ (s.is_speaking = true →
        (speakInThread s true synthOk true).1.is_speaking = true
        ∧ TTSAction.emitPlaybackFinished ∉ (speakInThread s true synthOk true).2)
    ∧ speakInThread s false synthOk true
        = ({ s with is_speaking := false },
            [TTSAction.setSpeakingFalse, TTSAction.emitPlaybackFinished]) := by
  refine ⟨?_, ?_, ?_⟩
  · cases synthOk <;> rfl
  · intro h
    cases synthOk <;> simp [speakInThread, generateSpeech, h]
  · rfl

/-- Witness for the amended C3 theorem at a concrete speaking state. -/
theorem c3_amended_witness :
    generateSpeech false = Except.ok ()
    ∧ ((speakInThread ⟨true, some "old.mp3"⟩ true false true).1.is_speaking = true
        ∧ TTSAction.emitPlaybackFinished
            ∉ (speakInThread ⟨true, some "old.mp3"⟩ true false true).2) := by
  have h := c3_amended ⟨true, some "old.mp3"⟩ false
  exact ⟨h.1, h.2.1 rfl⟩

/-- C4: counterexample.  On natural end of playback (`EndOfMedia`) the
controller clears `is_speaking`, releases the temp file and emits
`playback_finished`; no playback-ended timestamp is recorded before the
emission (`set_last_tts_time` is never called by the controller). -/
theorem c4_counterexample :
    (onMediaStatusChanged ⟨true, some "tts.mp3"⟩ MediaStatus.endOfMedia).2
      = [TTSAction.setSpeakingFalse, TTSAction.cleanupTempFile,
          TTSAction.emitPlaybackFinished]
    ∧ recordsTimestampBeforeFinish
        (onMediaStatusChanged ⟨true, some "tts.mp3"⟩ MediaStatus.endOfMedia).2 = false := by
  decide

/-- C4 (amended): on every natural end of audio the controller clears
`is_speaking`, releases the audio resource and emits `playback_finished`,
and records no debounce timestamp at any point of the handler — timestamp
recording is left to consumers of the `playback_finished` signal. -/
theorem c4_amended (s : TTSState) :
    (onMediaStatusChanged s MediaStatus.endOfMedia).1.is_speaking = false
    ∧ (onMediaStatusChanged s MediaStatus.endOfMedia).2
        = [TTSAction.setSpeakingFalse, TTSAction.cleanupTempFile,
            TTSAction.emitPlaybackFinished]
    ∧ TTSAction.recordTimestamp ∉ (onMediaStatusChanged s MediaStatus.endOfMedia).2 := by
  refine ⟨rfl, rfl, ?_⟩
  rw [show (onMediaStatusChanged s MediaStatus.endOfMedia).2
      = [TTSAction.setSpeakingFalse, TTSAction.cleanupTempFile,
          TTSAction.emitPlaybackFinished] from rfl]
  decide

/-- C10: `speak` with empty (falsy) text returns immediately as a no-op: the
state (in particular `is_speaking` and the temp-file slot) is unchanged, no
current playback is stopped, and neither `playback_started` nor
`playback_finished` is emitted. -/
theorem c10_speak_empty_noop (s : TTSState) :
    speak s "" = (s, []) := by
  simp [speak]

end TTS

namespace SR

/-- Mutable fields of `SpeechRecognitionEngine` that its methods assign. -/
structure SRState where
  is_listening : Bool
  continuous_mode : Bool
  last_tts_end_time : ℚ
  is_hearing_audio : Bool
  is_tts_playing : Bool
  deriving DecidableEq

/-- `SpeechRecognitionEngine.__init__`: in particular `is_hearing_audio` and
`is_tts_playing` start `False` and `last_tts_end_time` starts at 0. -/
def initState : SRState :=
  { is_listening := false, continuous_mode := false, last_tts_end_time := 0,
    is_hearing_audio := false, is_tts_playing := false }

/-- The engine operations that assign fields: the public API plus the
assignments inside `_listen_loop` (a recognition at time `t` records the
debounce timestamp and, when not continuous, stops listening). -/
inductive SROp
  | startListening (continuous : Bool)
  | stopListening
  | loopRecognized (t : ℚ)
  | setLastTtsTime (t : ℚ)
  | startInterruptDetection
  | stopInterruptDetection

/-- Field updates of each operation, as written in the source — note that no
operation assigns `is_hearing_audio`. -/
def applyOp (op : SROp) (s : SRState) : SRState :=
  match op with
  | .startListening c =>
    if s.is_listening then s
    else { s with continuous_mode := c, is_listening := true }
  | .stopListening => { s with is_listening := false }
  | .loopRecognized t =>
    { s with last_tts_end_time := t,
             is_listening := if s.continuous_mode then s.is_listening else false }
  | .setLastTtsTime t => { s with last_tts_end_time := t }
  | .startInterruptDetection => { s with is_tts_playing := true }
  | .stopInterruptDetection => { s with is_tts_playing := false }

/-- Engine states reachable from `__init__` by any sequence of operations. -/
inductive Reachable : SRState → Prop
  | init : Reachable initState
  | step {s : SRState} (op : SROp) : Reachable s → Reachable (applyOp op s)

theorem hearing_audio_false {s : SRState} (h : Reachable s) :
    s.is_hearing_audio = false := by
  induction h with
  | init => rfl
  | step op hs ih =>
    cases op with
    | startListening c =>
      show (if _ then _ else _ : SRState).is_hearing_audio = false
      split_ifs <;> simpa using ih
    | stopListening => simpa [applyOp] using ih
    | loopRecognized t => simpa [applyOp] using ih
    | setLastTtsTime t => simpa [applyOp] using ih
    | startInterruptDetection => simpa [applyOp] using ih
    | stopInterruptDetection => simpa [applyOp] using ih

end SR

namespace MW

/-- `MainWindow.detect_voice_interrupt`: the interruption predicate installed
into the TTS engine by `set_auto_interrupt_detector`.  `voiceOn` is
`voice_input_button.isChecked()`, `t` the current time; the constant 1.0 s is
the predicate's own debounce window.  (The attribute-existence guards are all
true for a constructed engine, and the `except` path cannot trigger here.) -/
def detect_voice_interrupt (sr : SR.SRState) (voiceOn : Bool) (t : ℚ) : Bool :=
  if t - sr.last_tts_end_time < 1 then false
  else if voiceOn && sr.is_hearing_audio then true
  else false

theorem detect_true_needs_hearing (sr : SR.SRState) (voiceOn : Bool) (t : ℚ)
    (h : detect_voice_interrupt sr voiceOn t = true) : sr.is_hearing_audio = true := by
  unfold detect_voice_interrupt at h
  split_ifs at h with h1 h2
  exact (TTS.bool_and_true h2).2

theorem detect_false_of_reachable (sr : SR.SRState) (voiceOn : Bool) (t : ℚ)
    (h : SR.Reachable sr) : detect_voice_interrupt sr voiceOn t = false := by
  have hh := SR.hearing_audio_false h
  unfold detect_voice_interrupt
  split_ifs with h1 h2
  · rfl
  · rw [hh] at h2
    simp at h2
  · rfl

/-- C2: the interruption predicate actually installed into the TTS engine
returns true only when `is_hearing_audio` is true; no code path ever assigns
`is_hearing_audio` after `__init__` sets it `False`, so on every reachable
engine state every invocation returns false, and the barge-in monitor polling
the predicate never calls stop. -/
theorem c2_detect_never_fires :
    (∀ sr voiceOn t, detect_voice_interrupt sr voiceOn t = true →
        sr.is_hearing_audio = true)
    ∧ (∀ sr, SR.Reachable sr → sr.is_hearing_audio = false)
    ∧ (∀ sr voiceOn t, SR.Reachable sr → detect_voice_interrupt sr voiceOn t = false)
    ∧ (∀ (polls : List (SR.SRState × Bool × ℚ)),
        (∀ p ∈ polls, SR.Reachable p.1) →
        TTS.monitorCallsStop
          (polls.map (fun p => detect_voice_interrupt p.1 p.2.1 p.2.2)) = false) := by
  refine ⟨detect_true_needs_hearing, fun sr h => SR.hearing_audio_false h,
    detect_false_of_reachable, ?_⟩
  intro polls hp
  induction polls with
  | nil => rfl
  | cons p ps ih =>
    have h1 : detect_voice_interrupt p.1 p.2.1 p.2.2 = false :=
      detect_false_of_reachable _ _ _ (hp p (List.mem_cons_self p ps))
    have h2 := ih (fun q hq => hp q (List.mem_cons_of_mem p hq))
    simp [TTS.monitorCallsStop] at h2 ⊢
    exact ⟨by simp [h1], h2⟩

/-- Witness: the predicate evaluated on the freshly constructed engine (well
outside the debounce window, voice input on) returns false. -/
theorem c2_detect_witness :
    detect_voice_interrupt SR.initState true 5 = false :=
  c2_detect_never_fires.2.2.1 SR.initState true 5 SR.Reachable.init

/-- C8: any evaluation of the barge-in predicate at a time `t` with
`t - last_tts_end_time < 1.0` (the predicate's debounce window) returns false,
regardless of the rest of the state — in particular regardless of the sampled
audio-energy indicator `is_hearing_audio` and of the toggle state. -/
theorem c8_debounce (sr : SR.SRState) (voiceOn : Bool) (t : ℚ)
    (h : t - sr.last_tts_end_time < 1) :
    detect_voice_interrupt sr voiceOn t = false := by
  unfold detect_voice_interrupt
  rw [if_pos h]

/-- Witness for the debounce theorem: 0.5 s after a playback end, with voice
input on and the hearing flag artificially true, the predicate still returns
false. -/
theorem c8_debounce_witness :
    ((21 : ℚ) / 2) - ((⟨true, true, 10, true, true⟩ : SR.SRState)).last_tts_end_time < 1
    ∧ detect_voice_interrupt (⟨true, true, 10, true, true⟩ : SR.SRState)
        true ((21 : ℚ) / 2) = false := by
  constructor
  · norm_num
  · exact c8_debounce _ _ _ (by norm_num)

end MW

namespace SR

/-- Program points of a `_listen_loop` worker thread.  The debounce-sleep
branch at the loop head and backend-error sleeps are stutter steps and are not
distinguished. -/
inductive WorkerPC
  | loopHead      -- top of `while self.is_listening`
  | capturing     -- microphone open, blocked in `recognizer.listen`
  | captured      -- segment returned; next runs `if not self.is_listening: return`
  | transcribing  -- blocked in `recognizer.recognize_google`
  | dead          -- thread finished
  deriving DecidableEq, Repr

/-- Shared flags plus the listen-loop worker threads, by spawn order. -/
structure Cfg where
  listening : Bool
  continuous : Bool
  workers : List WorkerPC
  deriving DecidableEq, Repr

def initCfg : Cfg := { listening := false, continuous := false, workers := [] }

/-- Externally observable events of the listening controller. -/
inductive SREvent
  | listeningStarted          -- status "Listening..." emitted by start_listening
  | stopCompleted             -- stop_listening returned to its caller
  | recognized (txt : String) -- speech_recognized emission
  | statusNotListening        -- status "Not listening"
  deriving DecidableEq, Repr

/-- Interleaving labels: API calls on the GUI thread and worker steps. -/
inductive Label
  | startCall (continuous : Bool) -- start_listening
  | stopSet                       -- stop_listening: `self.is_listening = False`
  | stopReturn                    -- stop_listening: the join(timeout=0.1) has
                                  -- elapsed or found the thread dead; emit
                                  -- status and return
  | workerEnter (i : Nat)         -- loopHead, flag true: open mic, block in listen
  | workerExit (i : Nat)          -- loopHead, flag false: leave the loop
  | workerCaptured (i : Nat)      -- `listen` returns a segment
  | workerListenFail (i : Nat)    -- capture raised; logged, loop continues
  | workerAbort (i : Nat)         -- captured, flag false: `return` before transcribing
  | workerTranscribe (i : Nat)    -- captured, flag true: call recognize_google
  | workerRecognized (i : Nat) (txt : String) -- non-empty recognition result:
                                  -- record debounce time, emit speech_recognized,
                                  -- then stop unless continuous
  | workerNoText (i : Nat)        -- timeout / unintelligible / backend error
  deriving DecidableEq, Repr

/-- One atomic step of the system; `none` when the label is not enabled. -/
def step (c : Cfg) (l : Label) : Option (Cfg × List SREvent) :=
  match l with
  | .startCall cont =>
    if c.listening then some (c, [])
    else some ({ c with
      listening := true
      continuous := cont
      workers := c.workers ++ [WorkerPC.loopHead] }, [.listeningStarted])
  | .stopSet => some ({ c with listening := false }, [])
  | .stopReturn => some (c, [.statusNotListening, .stopCompleted])
  | .workerEnter i =>
    match c.workers[i]? with
    | some WorkerPC.loopHead =>
      if c.listening then some ({ c with workers := c.workers.set i .capturing }, [])
      else none
    | _ => none
  | .workerExit i =>
    match c.workers[i]? with
    | some WorkerPC.loopHead =>
      if c.listening then none
      else some ({ c with workers := c.workers.set i .dead }, [])
    | _ => none
  | .workerCaptured i =>
    match c.workers[i]? with
    | some WorkerPC.capturing => some ({ c with workers := c.workers.set i .captured }, [])
    | _ => none
  | .workerListenFail i =>
    match c.workers[i]? with
    | some WorkerPC.capturing => some ({ c with workers := c.workers.set i .loopHead }, [])
    | _ => none
  | .workerAbort i =>
    match c.workers[i]? with
    | some WorkerPC.captured =>
      if c.listening then none
      else some ({ c with workers := c.workers.set i .dead }, [])
    | _ => none
  | .workerTranscribe i =>
    match c.workers[i]? with
    | some WorkerPC.captured =>
      if c.listening then some ({ c with workers := c.workers.set i .transcribing }, [])
      else none
    | _ => none
  | .workerRecognized i txt =>
    match c.workers[i]? with
    | some WorkerPC.transcribing =>
      if txt = "" then none
      else if c.continuous then
        some ({ c with workers := c.workers.set i .loopHead }, [.recognized txt])
      else
        some ({ c with listening := false, workers := c.workers.set i .dead },
          [.recognized txt, .statusNotListening])
    | _ => none
  | .workerNoText i =>
    match c.workers[i]? with
    | some WorkerPC.transcribing =>
      some ({ c with workers := c.workers.set i .loopHead }, [])
    | _ => none

/-- Run a label sequence, accumulating the emitted events in order. -/
def run (c : Cfg) : List Label → Option (Cfg × List SREvent)
  | [] => some (c, [])
  | l :: ls =>
    match step c l with
    | none => none
    | some (c', evs) =>
      match run c' ls with
      | none => none
      | some (c'', evs') => some (c'', evs ++ evs')

/-- Some `recognized` event occurs after a `stopCompleted` event. -/
def emitAfterStop : List SREvent → Bool
  | [] => false
  | SREvent.stopCompleted :: rest =>
    rest.any (fun e => match e with | SREvent.recognized _ => true | _ => false)
      || emitAfterStop rest
  | _ :: rest => emitAfterStop rest

def c7Labels : List Label :=
  [.startCall true, .workerEnter 0, .workerCaptured 0, .workerTranscribe 0,
   .stopSet, .stopReturn, .workerRecognized 0 "hello"]

/-- C7: counterexample.  The worker checks `is_listening` after capture but
not again after transcription, and `stop_listening` joins with only a 0.1 s
timeout; so a `stop()` that completes while the worker sits in
`recognize_google` is followed by a `speech_recognized` emission: a valid
interleaving emits `recognized` after `stopCompleted`. -/
theorem c7_counterexample :
    run initCfg c7Labels
      = some ({ listening := false, continuous := true, workers := [WorkerPC.loopHead] },
          [SREvent.listeningStarted, SREvent.statusNotListening, SREvent.stopCompleted,
           SREvent.recognized "hello"])
    ∧ emitAfterStop [SREvent.listeningStarted, SREvent.statusNotListening,
        SREvent.stopCompleted, SREvent.recognized "hello"] = true := by
  decide

/-- No worker is currently inside transcription. -/
def noTranscriber (c : Cfg) : Prop :=
  ∀ w ∈ c.workers, w ≠ WorkerPC.transcribing

/-- The label sequence contains no new `start_listening` call. -/
def noStart (ls : List Label) : Prop :=
  ∀ l ∈ ls, ∀ b, l ≠ Label.startCall b

theorem step_preserves {c : Cfg} {l : Label} {c' : Cfg} {evs : List SREvent}
    (hl : c.listening = false) (ht : noTranscriber c)
    (hns : ∀ b, l ≠ Label.startCall b) (hs : step c l = some (c', evs)) :
    c'.listening = false ∧ noTranscriber c'
      ∧ ∀ txt, SREvent.recognized txt ∉ evs := by
  cases l with
  | startCall b => exact absurd rfl (hns b)
  | stopSet =>
    simp [step] at hs
    obtain ⟨rfl, rfl⟩ := hs
    exact ⟨rfl, ht, by simp⟩
  | stopReturn =>
    simp [step] at hs
    obtain ⟨rfl, rfl⟩ := hs
    exact ⟨hl, ht, by simp⟩
  | workerEnter i =>
    simp [step] at hs
    cases hw : c.workers[i]? with
    | none => rw [hw] at hs; simp at hs
    | some w =>
      rw [hw] at hs
      cases w <;> simp at hs
      rw [hl] at hs
      simp at hs
  | workerExit i =>
    simp [step] at hs
    cases hw : c.workers[i]? with
    | none => rw [hw] at hs; simp at hs
    | some w =>
      rw [hw] at hs
      cases w <;> simp at hs
      rw [hl] at hs
      simp at hs
      obtain ⟨rfl, rfl⟩ := hs
      refine ⟨rfl, ?_, by simp⟩
      intro x hx
      rcases List.mem_or_eq_of_mem_set hx with h | h
      · exact ht x h
      · rw [h]; simp
  | workerCaptured i =>
    simp [step] at hs
    cases hw : c.workers[i]? with
    | none => rw [hw] at hs; simp at hs
    | some w =>
      rw [hw] at hs
      cases w <;> simp at hs
      obtain ⟨rfl, rfl⟩ := hs
      refine ⟨hl, ?_, by simp⟩
      intro x hx
      rcases List.mem_or_eq_of_mem_set hx with h | h
      · exact ht x h
      · rw [h]; simp
  | workerListenFail i =>
    simp [step] at hs
    cases hw : c.workers[i]? with
    | none => rw [hw] at hs; simp at hs
    | some w =>
      rw [hw] at hs
      cases w <;> simp at hs
      obtain ⟨rfl, rfl⟩ := hs
      refine ⟨hl, ?_, by simp⟩
      intro x hx
      rcases List.mem_or_eq_of_mem_set hx with h | h
      · exact ht x h
      · rw [h]; simp
  | workerAbort i =>
    simp [step] at hs
    cases hw : c.workers[i]? with
    | none => rw [hw] at hs; simp at hs
    | some w =>
      rw [hw] at hs
      cases w <;> simp at hs
      rw [hl] at hs
      simp at hs
      obtain ⟨rfl, rfl⟩ := hs
      refine ⟨rfl, ?_, by simp⟩
      intro x hx
      rcases List.mem_or_eq_of_mem_set hx with h | h
      · exact ht x h
      · rw [h]; simp
  | workerTranscribe i =>
    simp [step] at hs
    cases hw : c.workers[i]? with
    | none => rw [hw] at hs; simp at hs
    | some w =>
      rw [hw] at hs
      cases w <;> simp at hs
      rw [hl] at hs
      simp at hs
  | workerRecognized i txt =>
    exfalso
    simp [step] at hs
    cases hw : c.workers[i]? with
    | none => rw [hw] at hs; simp at hs
    | some w =>
      rw [hw] at hs
      cases w <;> simp at hs
      exact ht _ (List.getElem?_mem hw) rfl
  | workerNoText i =>
    exfalso
    simp [step] at hs
    cases hw : c.workers[i]? with
    | none => rw [hw] at hs; simp at hs
    | some w =>
      rw [hw] at hs
      cases w <;> simp at hs
      exact ht _ (List.getElem?_mem hw) rfl

/-- C7 (amended): once `stop_listening` has completed and the worker has not
yet passed its post-capture cancellation check (it is not in transcription),
no `speech_recognized` is emitted before the next `start_listening`; only a
worker already inside `recognize_google` when stop returns can still emit one
final event. -/
theorem c7_amended : ∀ (ls : List Label) (c : Cfg) (res : Cfg × List SREvent),
    c.listening = false → noTranscriber c → noStart ls →
    run c ls = some res → ∀ txt, SREvent.recognized txt ∉ res.2 := by
  intro ls
  induction ls with
  | nil =>
    intro c res _ _ _ hr txt
    simp [run] at hr
    rw [← hr]
    simp
  | cons l ls' ih =>
    intro c res hl ht hns hr txt
    simp only [run] at hr
    cases hstep : step c l with
    | none => rw [hstep] at hr; simp at hr
    | some p =>
      obtain ⟨c1, evs1⟩ := p
      rw [hstep] at hr
      simp only [] at hr
      cases hrun : run c1 ls' with
      | none => rw [hrun] at hr; simp at hr
      | some q =>
        obtain ⟨c2, evs2⟩ := q
        rw [hrun] at hr
        simp only [Option.some.injEq] at hr
        obtain ⟨h1, h2, h3⟩ := step_preserves hl ht
          (fun b => hns l (List.mem_cons_self l ls') b) hstep
        have h4 := ih c1 (c2, evs2) h1 h2
          (fun x hx b => hns x (List.mem_cons_of_mem l hx) b) hrun txt
        rw [← hr]
        simp only [List.mem_append]
        intro hcon
        rcases hcon with hc1 | hc2
        · exact h3 txt hc1
        · exact h4 hc2

/-- Witness for the amended C7 theorem: from a stopped configuration with one
worker still blocked in capture, a stop pair emits no recognition event. -/
theorem c7_amended_witness :
    SREvent.recognized "hi" ∉
      (({ listening := false, continuous := false, workers := [WorkerPC.capturing] } : Cfg),
        [SREvent.statusNotListening, SREvent.stopCompleted]).2 :=
  c7_amended [Label.stopSet, Label.stopReturn]
    { listening := false, continuous := false, workers := [WorkerPC.capturing] }
    ({ listening := false, continuous := false, workers := [WorkerPC.capturing] },
      [SREvent.statusNotListening, SREvent.stopCompleted])
    rfl (by intro w hw; simp at hw; rw [hw]; simp) (by intro l hl b; fin_cases hl <;> simp)
    (by rfl) "hi"

def c9Labels : List Label :=
  [.startCall true, .workerEnter 0, .stopSet, .stopReturn, .startCall true, .workerEnter 1]

/-- Number of live listen-loop worker threads. -/
def liveWorkers (c : Cfg) : Nat :=
  (c.workers.filter (fun w => !(w == WorkerPC.dead))).length

/-- C9: counterexample.  `stop_listening` returns after a 0.1 s join timeout
without ensuring the worker exited; a start–stop–start sequence while the old
worker is still blocked in `recognizer.listen` leaves two live capture loops
holding the microphone at once — the session is doubly active. -/
theorem c9_counterexample :
    run initCfg c9Labels
      = some ((⟨true, true, [WorkerPC.capturing, WorkerPC.capturing]⟩ : Cfg),
          [SREvent.listeningStarted, SREvent.statusNotListening, SREvent.stopCompleted,
           SREvent.listeningStarted])
    ∧ liveWorkers (⟨true, true, [WorkerPC.capturing, WorkerPC.capturing]⟩ : Cfg) = 2 := by
  decide

/-- C9 (amended): `start_listening` is a no-op (no new worker, no event) while
`is_listening` is already true, and `stop_listening` never fails — both its
phases are enabled in every state, including before any start; but "at most
one active session" holds only for the `is_listening` flag, not for capture
workers, since stop does not wait for its worker to exit. -/
theorem c9_amended (c : Cfg) (cont : Bool) :
    (c.listening = true → step c (Label.startCall cont) = some (c, []))
    ∧ step c Label.stopSet = some ({ c with listening := false }, [])
    ∧ step c Label.stopReturn = some (c, [SREvent.statusNotListening, SREvent.stopCompleted]) := by
  refine ⟨?_, rfl, rfl⟩
  intro h
  simp [step, h]

/-- Witness: `start_listening` while already listening changes nothing, and
`stop_listening` is enabled on the never-started initial state. -/
theorem c9_amended_witness :
    step { listening := true, continuous := true, workers := [WorkerPC.loopHead] }
        (Label.startCall false)
      = some ({ listening := true, continuous := true, workers := [WorkerPC.loopHead] }, [])
    ∧ step initCfg Label.stopSet = some ({ initCfg with listening := false }, []) := by
  have h := c9_amended (⟨true, true, [WorkerPC.loopHead]⟩ : Cfg) false
  exact ⟨h.1 rfl, (c9_amended initCfg false).2.1⟩

end SR

namespace MW

/-- The pyqtSignal class attributes defined on `TTSEngine`. -/
def ttsEngineSignals : List String := ["playback_finished", "playback_started"]

/-- Objects whose signals `MainWindow.connect_signals` subscribes to. -/
inductive SigObj
  | uiWidget   -- buttons / toggles / combo boxes (Qt-provided signals)
  | speechRec  -- the SpeechRecognitionEngine instance
  | ttsEngine  -- the TTSEngine instance
  deriving DecidableEq, Repr

/-- Signal attributes that exist on each object. -/
def objSignals : SigObj → List String
  | .uiWidget => ["clicked", "toggled", "currentTextChanged"]
  | .speechRec => ["speech_recognized", "status_changed", "interrupt_detected"]
  | .ttsEngine => ttsEngineSignals

/-- One `<object>.<signal>.connect(<slot>)` statement. -/
structure ConnectStmt where
  obj : SigObj
  signal : String
  slot : String
  deriving DecidableEq, Repr

/-- The statements of the `try` block of `MainWindow.connect_signals`, in
source order, with every guard true (all components initialised). -/
def connectSignalsBody : List ConnectStmt :=
  [⟨.uiWidget, "clicked", "send_message"⟩,
   ⟨.uiWidget, "toggled", "toggle_webcam"⟩,
   ⟨.uiWidget, "currentTextChanged", "change_voice"⟩,
   ⟨.uiWidget, "toggled", "toggle_voice_input"⟩,
   ⟨.speechRec, "speech_recognized", "on_speech_recognized"⟩,
   ⟨.speechRec, "status_changed", "update_status"⟩,
   ⟨.ttsEngine, "speech_started", "on_speech_started"⟩,
   ⟨.ttsEngine, "speech_ended", "on_speech_ended"⟩,
   ⟨.ttsEngine, "speech_started", "pause_speech_recognition"⟩,
   ⟨.ttsEngine, "speech_ended", "resume_speech_recognition"⟩]

/-- Run the `try` block: each statement first looks its signal attribute up on
its object; a missing attribute raises `AttributeError`, which the `except`
catches and logs — `connect_signals` then returns with only the connections
made so far, and the error name. -/
def runConnects : List ConnectStmt → List ConnectStmt × Option String
  | [] => ([], none)
  | stmt :: rest =>
    if stmt.signal ∈ objSignals stmt.obj then
      match runConnects rest with
      | (done, err) => (stmt :: done, err)
    else ([], some stmt.signal)

/-- `MainWindow.connect_signals` with all components available. -/
def connectSignals : List ConnectStmt × Option String :=
  runConnects connectSignalsBody

/-- The listening-coordination state visible to the `MainWindow` handlers. -/
structure MWState where
  is_listening : Bool      -- speech_recognition.is_listening
  was_listening : Bool     -- MainWindow.was_listening
  voiceOn : Bool           -- voice_input_button.isChecked()
  continuousOn : Bool      -- continuous_listening_toggle.isChecked()
  tts_time_recorded : Bool -- whether set_last_tts_time was called
  deriving DecidableEq, Repr

/-- `MainWindow.pause_speech_recognition`: remember whether we were listening,
then stop listening. -/
def pause_speech_recognition (st : MWState) : MWState :=
  if st.is_listening then { st with was_listening := true, is_listening := false }
  else { st with was_listening := false }

/-- `MainWindow.resume_speech_recognition`: if we were listening, record the
debounce timestamp and, when the voice-input toggle is still on, wait ≈0.5 s
and restart listening (continuous as configured); then clear the flag. -/
def resume_speech_recognition (st : MWState) : MWState :=
  if st.was_listening then
    if st.voiceOn then
      { st with tts_time_recorded := true, is_listening := true, was_listening := false }
    else { st with tts_time_recorded := true, was_listening := false }
  else st

/-- Deliver a TTS signal emission to every connected slot, in connection
order. -/
def dispatchTTS (conns : List ConnectStmt) (signalName : String) (st : MWState) : MWState :=
  conns.foldl (fun s c =>
    if c.obj == SigObj.ttsEngine && c.signal == signalName then
      (if c.slot == "pause_speech_recognition" then pause_speech_recognition s
       else if c.slot == "resume_speech_recognition" then resume_speech_recognition s
       else s)
    else s) st

/-- C1: code bug.  `connect_signals` subscribes to `speech_started` and
`speech_ended` on the TTS engine, but the engine's signals are named
`playback_started` and `playback_finished`.  The AttributeError is caught and
logged, so no TTS connection is ever made, and an emission of
`playback_started` (or `playback_finished`) dispatches to no handler: the
listening state is untouched and `stop_listening` is never called — the
claimed coordinator wiring is dead.  The handlers themselves implement
exactly the claimed behaviour: `pause_speech_recognition` on a listening
state remembers that fact and stops listening. -/
theorem c1_wiring_dead :
    connectSignals.2 = some "speech_started"
    ∧ (∀ c ∈ connectSignals.1, c.obj ≠ SigObj.ttsEngine)
    ∧ ("playback_started" ∈ ttsEngineSignals ∧ "speech_started" ∉ ttsEngineSignals
        ∧ "speech_ended" ∉ ttsEngineSignals)
    ∧ (∀ st, dispatchTTS connectSignals.1 "playback_started" st = st)
    ∧ (∀ st, dispatchTTS connectSignals.1 "playback_finished" st = st)
    ∧ (∀ st : MWState,
        (pause_speech_recognition { st with is_listening := true }).is_listening = false
        ∧ (pause_speech_recognition { st with is_listening := true }).was_listening = true) := by
  refine ⟨by decide, by decide, by decide, fun st => rfl, fun st => rfl, fun st => ?_⟩
  constructor <;> rfl

end MW
